import Mathlib

/-!
Verification of the message-relay bot (`app.py`): the chunker
`split_message`, the delivery policy `reply_long_text`, the admission-gate
counter discipline of `handle_message`, the error handling of
`call_xai_api`, and the soft-timeout wait on the generation thread.

Text is modelled as `List Char`; Python string slices, `rfind`, `rstrip`
and `lstrip` are translated below.
-/

namespace PMPLearning

/-- The characters Python's `str.isspace` (and hence the no-argument
`str.strip`/`lstrip`/`rstrip`) treats as whitespace: the ASCII controls
`\t \n \v \f \r`, the separators `\x1c`-`\x1f`, space, NEL (`\x85`),
no-break space (`\xa0`), Ogham space mark (U+1680), the U+2000-U+200A
spaces, line and paragraph separator (U+2028, U+2029), narrow no-break
space (U+202F), medium mathematical space (U+205F) and ideographic space
(U+3000). -/
def pyIsSpace (c : Char) : Bool :=
  c = ' ' || c = '\t' || c = '\n' || c = '\r' ||
  c = '\x0b' || c = '\x0c' ||
  c = '\x1c' || c = '\x1d' || c = '\x1e' || c = '\x1f' ||
  c = '\x85' || c = '\xa0' ||
  c = '\u1680' ||
  ('\u2000' ≤ c && c ≤ '\u200A') ||
  c = '\u2028' || c = '\u2029' || c = '\u202F' || c = '\u205F' ||
  c = '\u3000'

/-- Python `str.lstrip()`: drop leading whitespace. -/
def lstrip (s : List Char) : List Char := s.dropWhile pyIsSpace

/-- Python `str.rstrip()`: drop trailing whitespace. -/
def rstrip (s : List Char) : List Char := (s.reverse.dropWhile pyIsSpace).reverse

/-- Index of the last occurrence of `c` in `l`, if any. -/
def lastIdxOf : List Char → Char → Option Nat
  | [], _ => none
  | a :: as, c =>
    match lastIdxOf as c with
    | some j => some (j + 1)
    | none => if a = c then some (0 : Nat) else none

/-- Python `text.rfind(c, 0, stop)`: index of the last occurrence of `c`
among the first `stop` characters (`none` in place of `-1`). -/
def rfindChar (s : List Char) (c : Char) (stop : Nat) : Option Nat :=
  lastIdxOf (s.take stop) c

/-- The cut position chosen by one iteration of the `split_message` loop
(lines 130-134 of `app.py`): the last newline in the first `max_length`
characters, else the last space there; if nothing was found or the found
position is below `max_length / 2`, cut at `max_length`. -/
def split_pos (text : List Char) (max_length : Nat) : Nat :=
  let found :=
    match rfindChar text '\n' max_length with
    | some i => some i
    | none => rfindChar text ' ' max_length
  match found with
  | none => max_length
  | some i => if i < max_length / 2 then max_length else i

/-- The `while len(text) > max_length` loop of `split_message`, with fuel
bounding the number of iterations.  For `max_length ≥ 1` every iteration
strictly shortens `text`, so fuel `text.length` is never exhausted
(proved below). -/
def splitGo : Nat → List Char → Nat → List (List Char)
  | 0, text, _ => if text = [] then [] else [text]
  | fuel + 1, text, max_length =>
    if text.length ≤ max_length then
      if text = [] then [] else [text]
    else
      let pos := split_pos text max_length
      rstrip (text.take pos) ::
        splitGo fuel (lstrip (text.drop pos)) max_length

/-- `split_message(text, max_length)` from `app.py` lines 123-139. -/
def split_message (text : List Char) (max_length : Nat) : List (List Char) :=
  splitGo text.length text max_length

/-! ### Basic facts about the helpers -/

theorem dropWhile_length_le (p : Char → Bool) (l : List Char) :
    (l.dropWhile p).length ≤ l.length := by
  induction l with
  | nil => simp [List.dropWhile]
  | cons a as ih =>
    by_cases h : p a
    · simp only [List.dropWhile_cons_of_pos h, List.length_cons]
      exact Nat.le_succ_of_le ih
    · simp [List.dropWhile_cons_of_neg h]

theorem lstrip_length_le (l : List Char) : (lstrip l).length ≤ l.length :=
  dropWhile_length_le pyIsSpace l

theorem rstrip_length_le (l : List Char) : (rstrip l).length ≤ l.length := by
  have h := dropWhile_length_le pyIsSpace l.reverse
  simpa [rstrip] using h

theorem lastIdxOf_lt_length {l : List Char} {c : Char} {i : Nat}
    (h : lastIdxOf l c = some i) : i < l.length := by
  induction l generalizing i with
  | nil => simp [lastIdxOf] at h
  | cons a as ih =>
    simp only [lastIdxOf] at h
    cases hr : lastIdxOf as c with
    | some j =>
      rw [hr] at h
      cases h
      exact Nat.succ_lt_succ (ih hr)
    | none =>
      rw [hr] at h
      by_cases hac : a = c
      · simp [hac] at h
        rw [List.length_cons]
        omega
      · simp [hac] at h

theorem lastIdxOf_get {l : List Char} {c : Char} {i : Nat}
    (h : lastIdxOf l c = some i) : l.get? i = some c := by
  induction l generalizing i with
  | nil => simp [lastIdxOf] at h
  | cons a as ih =>
    simp only [lastIdxOf] at h
    cases hr : lastIdxOf as c with
    | some j =>
      rw [hr] at h
      cases h
      simpa using ih hr
    | none =>
      rw [hr] at h
      by_cases hac : a = c
      · simp [hac] at h
        subst h
        simp [hac]
      · simp [hac] at h

theorem lastIdxOf_none {l : List Char} {c : Char}
    (h : lastIdxOf l c = none) : ∀ j, l.get? j ≠ some c := by
  induction l with
  | nil => intro j; simp
  | cons a as ih =>
    simp only [lastIdxOf] at h
    cases hr : lastIdxOf as c with
    | some j => rw [hr] at h; cases h
    | none =>
      rw [hr] at h
      by_cases hac : a = c
      · simp [hac] at h
      · intro j
        cases j with
        | zero => simpa using hac
        | succ j => simpa using ih hr j

theorem lastIdxOf_last {l : List Char} {c : Char} {i : Nat}
    (h : lastIdxOf l c = some i) : ∀ j, i < j → l.get? j ≠ some c := by
  induction l generalizing i with
  | nil => simp [lastIdxOf] at h
  | cons a as ih =>
    simp only [lastIdxOf] at h
    cases hr : lastIdxOf as c with
    | some k =>
      rw [hr] at h
      cases h
      intro j hj
      cases j with
      | zero => omega
      | succ j =>
        have := ih hr j (Nat.lt_of_succ_lt_succ hj)
        simpa using this
    | none =>
      rw [hr] at h
      by_cases hac : a = c
      · simp [hac] at h
        subst h
        intro j hj
        cases j with
        | zero => omega
        | succ j => simpa using lastIdxOf_none hr j
      · simp [hac] at h

theorem lastIdxOf_mem {l : List Char} {c : Char} (h : c ∈ l) :
    ∃ i, lastIdxOf l c = some i := by
  induction l with
  | nil => cases h
  | cons a as ih =>
    cases hr : lastIdxOf as c with
    | some j => exact ⟨j + 1, by simp [lastIdxOf, hr]⟩
    | none =>
      have hac : a = c := by
        rcases List.mem_cons.mp h with h1 | h2
        · exact h1.symm
        · rcases List.mem_iff_get?.mp h2 with ⟨n, hn⟩
          exact absurd hn (lastIdxOf_none hr n)
      exact ⟨0, by simp [lastIdxOf, hr, hac]⟩

theorem split_pos_le (text : List Char) (m : Nat) : split_pos text m ≤ m := by
  unfold split_pos
  cases hn : rfindChar text '\n' m with
  | some i =>
    have hi : i < (text.take m).length := lastIdxOf_lt_length hn
    have : i < m := lt_of_lt_of_le hi (by simpa using List.length_take_le m text)
    simp only []
    by_cases hhalf : i < m / 2
    · simp [hhalf]
    · simp [hhalf]; omega
  | none =>
    cases hs : rfindChar text ' ' m with
    | some i =>
      have hi : i < (text.take m).length := lastIdxOf_lt_length hs
      have : i < m := lt_of_lt_of_le hi (by simpa using List.length_take_le m text)
      simp only []
      by_cases hhalf : i < m / 2
      · simp [hhalf]
      · simp [hhalf]; omega
    | none => simp

theorem split_pos_zero {text : List Char} {m : Nat} (hm : 1 ≤ m)
    (h : split_pos text m = 0) :
    text.get? 0 = some '\n' ∨ text.get? 0 = some ' ' := by
  unfold split_pos at h
  cases hn : rfindChar text '\n' m with
  | some i =>
    rw [hn] at h
    simp only [] at h
    by_cases hhalf : i < m / 2
    · simp [hhalf] at h; omega
    · simp [hhalf] at h
      subst h
      left
      have := lastIdxOf_get hn
      rwa [List.get?_take (by omega)] at this
  | none =>
    rw [hn] at h
    cases hs : rfindChar text ' ' m with
    | some i =>
      rw [hs] at h
      simp only [] at h
      by_cases hhalf : i < m / 2
      · simp [hhalf] at h; omega
      · simp [hhalf] at h
        subst h
        right
        have := lastIdxOf_get hs
        rwa [List.get?_take (by omega)] at this
    | none =>
      rw [hs] at h
      simp at h
      omega

theorem step_length_lt {text : List Char} {m : Nat} (hm : 1 ≤ m)
    (hlen : m < text.length) :
    (lstrip (text.drop (split_pos text m))).length < text.length := by
  rcases Nat.eq_zero_or_pos (split_pos text m) with h0 | hpos
  · have hc := split_pos_zero hm h0
    rw [h0]
    cases text with
    | nil => simp at hlen
    | cons a tail =>
      have ha : pyIsSpace a = true := by
        rcases hc with hc | hc
        · simp at hc; rw [hc]; decide
        · simp at hc; rw [hc]; decide
      have hdw : lstrip (a :: tail) = lstrip tail := by
        simp [lstrip, List.dropWhile_cons_of_pos ha]
      rw [List.drop_zero, hdw, List.length_cons]
      have := lstrip_length_le tail
      omega
  · have hle := lstrip_length_le (text.drop (split_pos text m))
    have hdrop : (text.drop (split_pos text m)).length < text.length := by
      rw [List.length_drop]
      omega
    omega

theorem splitGo_of_le {text : List Char} {m : Nat} (h : text.length ≤ m) :
    ∀ fuel, splitGo fuel text m = if text = [] then [] else [text] := by
  intro fuel
  cases fuel with
  | zero => rfl
  | succ f => simp only [splitGo, if_pos h]

theorem splitGo_fuel {m : Nat} (hm : 1 ≤ m) :
    ∀ fuel (text : List Char), text.length ≤ fuel →
      splitGo fuel text m = split_message text m := by
  intro fuel
  induction fuel using Nat.strong_induction_on with
  | _ fuel ih =>
    intro text hf
    by_cases hle : text.length ≤ m
    · rw [splitGo_of_le hle fuel, split_message, splitGo_of_le hle _]
    · push_neg at hle
      obtain ⟨f, rfl⟩ : ∃ f, fuel = f + 1 := ⟨fuel - 1, by omega⟩
      obtain ⟨t, ht⟩ : ∃ t, text.length = t + 1 := ⟨text.length - 1, by omega⟩
      have hstep := step_length_lt hm hle
      rw [split_message, ht]
      simp only [splitGo, if_neg (by omega : ¬ text.length ≤ m)]
      congr 1
      rw [ih f (by omega) _ (by omega), ih t (by omega) _ (by omega)]

theorem split_message_of_le {text : List Char} {m : Nat} (h : text.length ≤ m) :
    split_message text m = if text = [] then [] else [text] :=
  splitGo_of_le h text.length

theorem split_message_step {text : List Char} {m : Nat} (hm : 1 ≤ m)
    (h : m < text.length) :
    split_message text m =
      rstrip (text.take (split_pos text m)) ::
        split_message (lstrip (text.drop (split_pos text m))) m := by
  obtain ⟨t, ht⟩ : ∃ t, text.length = t + 1 := ⟨text.length - 1, by omega⟩
  rw [split_message, ht]
  simp only [splitGo, if_neg (by omega : ¬ text.length ≤ m)]
  congr 1
  exact splitGo_fuel hm t _ (by have := step_length_lt hm h; omega)

theorem split_message_rec {m : Nat} (hm : 1 ≤ m)
    {P : List Char → List (List Char) → Prop}
    (base : ∀ text : List Char, text.length ≤ m →
        P text (if text = [] then [] else [text]))
    (step : ∀ text : List Char, m < text.length →
        P (lstrip (text.drop (split_pos text m)))
          (split_message (lstrip (text.drop (split_pos text m))) m) →
        P text (rstrip (text.take (split_pos text m)) ::
          split_message (lstrip (text.drop (split_pos text m))) m)) :
    ∀ text, P text (split_message text m) := by
  have key : ∀ n (text : List Char), text.length = n →
      P text (split_message text m) := by
    intro n
    induction n using Nat.strong_induction_on with
    | _ n ih =>
      intro text hn
      by_cases hle : text.length ≤ m
      · rw [split_message_of_le hle]
        exact base text hle
      · push_neg at hle
        rw [split_message_step hm hle]
        exact step text hle (ih _ (hn ▸ step_length_lt hm hle) _ rfl)
  exact fun text => key text.length text rfl

theorem split_message_length_le {m : Nat} (hm : 1 ≤ m) (text : List Char) :
    ∀ p ∈ split_message text m, p.length ≤ m := by
  refine split_message_rec (P := fun _ parts => ∀ p ∈ parts, p.length ≤ m)
    hm ?_ ?_ text
  · intro t hle p hp
    by_cases he : t = []
    · simp [he] at hp
    · rw [if_neg he] at hp
      rw [List.mem_singleton.mp hp]
      exact hle
  · intro t hlt ih p hp
    rcases List.mem_cons.mp hp with rfl | hp
    · calc (rstrip (t.take (split_pos t m))).length
          ≤ (t.take (split_pos t m)).length := rstrip_length_le _
        _ ≤ split_pos t m := by
            rw [List.length_take]; exact Nat.min_le_left _ _
        _ ≤ m := split_pos_le t m
    · exact ih p hp

/-- Claim C1: for every input text and every `max_length > 0`,
`split_message` returns segments none of which is longer than
`max_length`; splitting the empty string yields the empty sequence; and
splitting a non-empty string of length at most `max_length` yields
exactly one segment equal to the input. -/
theorem claim1_segment_bounds (text : List Char) (m : Nat) (hm : 1 ≤ m) :
    (∀ p ∈ split_message text m, p.length ≤ m) ∧
    split_message ([] : List Char) m = [] ∧
    (text ≠ [] → text.length ≤ m → split_message text m = [text]) := by
  refine ⟨split_message_length_le hm text, ?_, ?_⟩
  · rw [split_message_of_le (by simp)]
    simp
  · intro hne hle
    rw [split_message_of_le hle, if_neg hne]

theorem claim1_witness :
    (1 : Nat) ≤ 3 ∧
    ((∀ p ∈ split_message ("abc".data) 3, p.length ≤ 3) ∧
     split_message ([] : List Char) 3 = [] ∧
     (("abc".data : List Char) ≠ [] → ("abc".data : List Char).length ≤ 3 →
       split_message ("abc".data) 3 = ["abc".data])) :=
  ⟨by decide, claim1_segment_bounds ("abc".data) 3 (by decide)⟩

/-! ### Reconstruction of the input from the segments (claim C3) -/

/-- `Reassembles text parts` states that `text` consists of the strings of
`parts`, in order and verbatim, with only whitespace characters in between
consecutive parts and after the last part.  This is exactly "no character
is dropped or duplicated across segment boundaries other than whitespace
trimmed at cut points". -/
inductive Reassembles : List Char → List (List Char) → Prop
  | nil : Reassembles [] []
  | cons (p w rest : List Char) (parts : List (List Char)) :
      (∀ c ∈ w, pyIsSpace c = true) → Reassembles rest parts →
      Reassembles (p ++ w ++ rest) (p :: parts)

theorem rstrip_decomp (l : List Char) :
    ∃ w, l = rstrip l ++ w ∧ ∀ c ∈ w, pyIsSpace c = true := by
  refine ⟨(l.reverse.takeWhile pyIsSpace).reverse, ?_, ?_⟩
  · rw [rstrip, ← List.reverse_append, List.takeWhile_append_dropWhile,
      List.reverse_reverse]
  · intro c hc
    rw [List.mem_reverse] at hc
    exact List.mem_takeWhile_imp hc

theorem lstrip_decomp (l : List Char) :
    ∃ w, l = w ++ lstrip l ∧ ∀ c ∈ w, pyIsSpace c = true := by
  refine ⟨l.takeWhile pyIsSpace, ?_, ?_⟩
  · rw [lstrip, List.takeWhile_append_dropWhile]
  · intro c hc
    exact List.mem_takeWhile_imp hc

/-- Claim C3: for every text and `max_length > 0`, the input text is the
concatenation of the emitted segments, in order, with only whitespace
(removed at the cut points) interleaved: no character is dropped or
duplicated across segment boundaries other than whitespace trimmed at
cuts. -/
theorem claim3_reconstruction (text : List Char) (m : Nat) (hm : 1 ≤ m) :
    Reassembles text (split_message text m) := by
  refine split_message_rec (P := fun t parts => Reassembles t parts)
    hm ?_ ?_ text
  · intro t hle
    by_cases he : t = []
    · rw [if_pos he, he]
      exact Reassembles.nil
    · rw [if_neg he]
      have h := Reassembles.cons t [] [] [] (by simp) Reassembles.nil
      simpa using h
  · intro t hlt ih
    obtain ⟨w1, hw1, hw1s⟩ := rstrip_decomp (t.take (split_pos t m))
    obtain ⟨w2, hw2, hw2s⟩ := lstrip_decomp (t.drop (split_pos t m))
    have hc := Reassembles.cons (rstrip (t.take (split_pos t m))) (w1 ++ w2)
      (lstrip (t.drop (split_pos t m)))
      (split_message (lstrip (t.drop (split_pos t m))) m)
      (by
        intro c hcmem
        rcases List.mem_append.mp hcmem with h | h
        exacts [hw1s c h, hw2s c h])
      ih
    have he : rstrip (t.take (split_pos t m)) ++ (w1 ++ w2) ++
        lstrip (t.drop (split_pos t m)) = t := by
      have hassoc : rstrip (t.take (split_pos t m)) ++ (w1 ++ w2) ++
          lstrip (t.drop (split_pos t m)) =
          (rstrip (t.take (split_pos t m)) ++ w1) ++
            (w2 ++ lstrip (t.drop (split_pos t m))) := by
        simp [List.append_assoc]
      rw [hassoc, ← hw1, ← hw2, List.take_append_drop]
    rwa [he] at hc

theorem claim3_witness :
    (1 : Nat) ≤ 3 ∧
    Reassembles ("ab cd".data) (split_message ("ab cd".data) 3) :=
  ⟨by decide, claim3_reconstruction ("ab cd".data) 3 (by decide)⟩

/-! ### The cut-position choice of each loop iteration (claim C5) -/

/-- `IsLastIdx s c stop i`: `i` is the index of the last occurrence of
`c` among the first `stop` characters of `s`. -/
def IsLastIdx (s : List Char) (c : Char) (stop i : Nat) : Prop :=
  s.get? i = some c ∧ i < stop ∧
    ∀ j, j < stop → i < j → s.get? j ≠ some c

theorem rfindChar_some {s : List Char} {c : Char} {stop i : Nat}
    (h : rfindChar s c stop = some i) : IsLastIdx s c stop i := by
  have hlt : i < (s.take stop).length := lastIdxOf_lt_length h
  have hstop : i < stop := lt_of_lt_of_le hlt (by
    simpa using List.length_take_le stop s)
  refine ⟨?_, hstop, ?_⟩
  · have := lastIdxOf_get h
    rwa [List.get?_take hstop] at this
  · intro j hj hij hc
    have : (s.take stop).get? j = some c := by
      rwa [List.get?_take hj]
    exact lastIdxOf_last h j hij this

theorem rfindChar_none {s : List Char} {c : Char} {stop : Nat}
    (h : rfindChar s c stop = none) :
    ∀ j, j < stop → s.get? j ≠ some c := by
  intro j hj hc
  have : (s.take stop).get? j = some c := by
    rwa [List.get?_take hj]
  exact lastIdxOf_none h j this

theorem rfindChar_of_isLastIdx {s : List Char} {c : Char} {stop i : Nat}
    (h : IsLastIdx s c stop i) : rfindChar s c stop = some i := by
  obtain ⟨hget, hstop, hlast⟩ := h
  have hmem : c ∈ s.take stop := by
    apply List.mem_iff_get?.mpr
    exact ⟨i, by rwa [List.get?_take hstop]⟩
  obtain ⟨j, hj⟩ := lastIdxOf_mem hmem
  have hIj : IsLastIdx s c stop j := rfindChar_some hj
  obtain ⟨hget', hstop', hlast'⟩ := hIj
  rcases Nat.lt_trichotomy i j with hij | rfl | hij
  · exact absurd hget' (hlast j hstop' hij)
  · exact hj
  · exact absurd hget (hlast' i hstop hij)

/-- Claim C5: in each iteration of the chunking loop (text longer than
`max_length`), the cut position is the last newline within the first
`max_length` characters, else the last space there, forced to exactly
`max_length` when the found position is below half of `max_length` (or
nothing was found); the emitted segment is the cut prefix with trailing
whitespace trimmed and the loop continues on the remainder with leading
whitespace trimmed. -/
theorem claim5_cut_choice (text : List Char) (m : Nat) (hm : 1 ≤ m)
    (hlen : m < text.length) :
    split_message text m =
      rstrip (text.take (split_pos text m)) ::
        split_message (lstrip (text.drop (split_pos text m))) m ∧
    (∀ i, IsLastIdx text '\n' m i →
      split_pos text m = if i < m / 2 then m else i) ∧
    ((∀ j, j < m → text.get? j ≠ some '\n') →
      ∀ i, IsLastIdx text ' ' m i →
        split_pos text m = if i < m / 2 then m else i) ∧
    ((∀ j, j < m → text.get? j ≠ some '\n') →
      (∀ j, j < m → text.get? j ≠ some ' ') →
      split_pos text m = m) := by
  refine ⟨split_message_step hm hlen, ?_, ?_, ?_⟩
  · intro i hi
    have h := rfindChar_of_isLastIdx hi
    unfold split_pos
    rw [h]
  · intro hno i hi
    have hnone : rfindChar text '\n' m = none := by
      cases h : rfindChar text '\n' m with
      | none => rfl
      | some j =>
        obtain ⟨hget, hstop, _⟩ := rfindChar_some h
        exact absurd hget (hno j hstop)
    have h := rfindChar_of_isLastIdx hi
    unfold split_pos
    rw [hnone, h]
  · intro hnon hnos
    have hnone1 : rfindChar text '\n' m = none := by
      cases h : rfindChar text '\n' m with
      | none => rfl
      | some j =>
        obtain ⟨hget, hstop, _⟩ := rfindChar_some h
        exact absurd hget (hnon j hstop)
    have hnone2 : rfindChar text ' ' m = none := by
      cases h : rfindChar text ' ' m with
      | none => rfl
      | some j =>
        obtain ⟨hget, hstop, _⟩ := rfindChar_some h
        exact absurd hget (hnos j hstop)
    unfold split_pos
    rw [hnone1, hnone2]

theorem claim5_witness :
    ((1 : Nat) ≤ 4 ∧ 4 < ("ab\ncdef".data : List Char).length) ∧
    split_message ("ab\ncdef".data) 4 =
      rstrip (("ab\ncdef".data).take (split_pos ("ab\ncdef".data) 4)) ::
        split_message
          (lstrip (("ab\ncdef".data).drop (split_pos ("ab\ncdef".data) 4))) 4 ∧
    split_pos ("ab\ncdef".data) 4 = 2 := by
  have h := claim5_cut_choice ("ab\ncdef".data) 4 (by decide) (by decide)
  refine ⟨⟨by decide, by decide⟩, h.1, ?_⟩
  have h2 := h.2.1 2 ⟨by decide, by decide, by decide⟩
  rw [h2]
  decide

/-- Claim C10: `split_message` is total for `max_length ≥ 1`: fuel equal
to the text length always suffices (any larger fuel gives the same
result), every loop iteration strictly shortens the remaining text, and a
cut position of `0` happens only when the first character is a newline or
a space, which the leading-whitespace trim then removes. -/
theorem claim10_termination (text : List Char) (m : Nat) (hm : 1 ≤ m) :
    (∀ fuel, text.length ≤ fuel → splitGo fuel text m = split_message text m) ∧
    (m < text.length →
      (lstrip (text.drop (split_pos text m))).length < text.length) ∧
    (split_pos text m = 0 →
      text.get? 0 = some '\n' ∨ text.get? 0 = some ' ') :=
  ⟨fun fuel hf => splitGo_fuel hm fuel text hf,
   fun h => step_length_lt hm h,
   fun h0 => split_pos_zero hm h0⟩

theorem claim10_witness :
    (1 : Nat) ≤ 2 ∧
    splitGo 10 ("abcd".data) 2 = split_message ("abcd".data) 2 ∧
    (2 < ("abcd".data : List Char).length →
      (lstrip (("abcd".data).drop (split_pos ("abcd".data) 2))).length <
        ("abcd".data : List Char).length) := by
  have h := claim10_termination ("abcd".data) 2 (by decide)
  exact ⟨by decide, h.1 10 (by decide), h.2.1⟩

/-! ### Empty segments (claim C6) -/

/-- Counterexample to claim C6 as stated: splitting the non-empty string
`"\na"` with `max_length = 1` emits the empty string as its first
segment (the cut prefix before the newline is empty), even though the
input is non-empty. -/
theorem claim6_counterexample :
    ("\na".data : List Char) ≠ [] ∧ (1 : Nat) ≤ 1 ∧
    split_message ("\na".data) 1 = [[], ['a']] ∧
    [] ∈ split_message ("\na".data) 1 := by decide

theorem dropWhile_eq_self_of {p : Char → Bool} {l : List Char}
    (h : ∀ c ∈ l, p c = false) : l.dropWhile p = l := by
  cases l with
  | nil => rfl
  | cons a as =>
    have : ¬ p a = true := by simp [h a (List.mem_cons_self a as)]
    exact List.dropWhile_cons_of_neg this

theorem rstrip_of_no_space {l : List Char}
    (h : ∀ c ∈ l, pyIsSpace c = false) : rstrip l = l := by
  rw [rstrip, dropWhile_eq_self_of (fun c hc => h c (List.mem_reverse.mp hc)),
    List.reverse_reverse]

theorem lstrip_of_no_space {l : List Char}
    (h : ∀ c ∈ l, pyIsSpace c = false) : lstrip l = l :=
  dropWhile_eq_self_of h

theorem split_pos_pos_of_no_space {text : List Char} {m : Nat} (hm : 1 ≤ m)
    (h : ∀ c ∈ text, pyIsSpace c = false) : 0 < split_pos text m := by
  rcases Nat.eq_zero_or_pos (split_pos text m) with h0 | hpos
  · rcases split_pos_zero hm h0 with hc | hc
    · have := h '\n' (List.get?_mem hc)
      simp [pyIsSpace] at this
    · have := h ' ' (List.get?_mem hc)
      simp [pyIsSpace] at this
  · exact hpos

/-- Claim C6 amended: for every text and `max_length > 0`, the output of
`split_message` is empty exactly when the input text is empty; and
provided the input contains no whitespace characters, no emitted segment
is the empty string.  (As stated the claim fails: a cut whose prefix is
entirely whitespace — e.g. input `"\na"` with `max_length = 1` — emits an
empty segment.) -/
theorem claim6_amended (text : List Char) (m : Nat) (hm : 1 ≤ m) :
    (split_message text m = [] ↔ text = []) ∧
    ((∀ c ∈ text, pyIsSpace c = false) →
      ∀ p ∈ split_message text m, p ≠ []) := by
  constructor
  · constructor
    · intro hout
      by_contra hne
      by_cases hle : text.length ≤ m
      · rw [split_message_of_le hle, if_neg hne] at hout
        cases hout
      · push_neg at hle
        rw [split_message_step hm hle] at hout
        cases hout
    · intro he
      rw [he, split_message_of_le (by simp)]
      simp
  · refine split_message_rec
      (P := fun t parts =>
        (∀ c ∈ t, pyIsSpace c = false) → ∀ p ∈ parts, p ≠ []) hm ?_ ?_ text
    · intro t hle hws p hp
      by_cases he : t = []
      · simp [he] at hp
      · rw [if_neg he] at hp
        rw [List.mem_singleton.mp hp]
        exact he
    · intro t hlt ih hws p hp
      rcases List.mem_cons.mp hp with rfl | hp
      · have hpos := split_pos_pos_of_no_space hm hws
        have hne : t.take (split_pos t m) ≠ [] := by
          intro habs
          have : t.take (split_pos t m) ≠ [] := by
            have ht : t ≠ [] := by
              intro h
              rw [h] at hlt
              simp at hlt
            cases t with
            | nil => exact absurd rfl ht
            | cons a as =>
              cases hsp : split_pos (a :: as) m with
              | zero => rw [hsp] at hpos; omega
              | succ k => simp [hsp]
          exact this habs
        have hsub : ∀ c ∈ t.take (split_pos t m), pyIsSpace c = false :=
          fun c hc => hws c (List.take_subset _ t hc)
        rw [rstrip_of_no_space hsub]
        exact hne
      · refine ih ?_ p hp
        intro c hc
        exact hws c
          (List.drop_subset _ t ((List.dropWhile_sublist pyIsSpace).subset hc))

theorem claim6_amended_witness :
    (1 : Nat) ≤ 2 ∧
    ((split_message ("abc".data) 2 = [] ↔ ("abc".data : List Char) = []) ∧
     ((∀ c ∈ ("abc".data : List Char), pyIsSpace c = false) →
       ∀ p ∈ split_message ("abc".data) 2, p ≠ [])) :=
  ⟨by decide, claim6_amended ("abc".data) 2 (by decide)⟩

/-! ### Delivery policy (claim C4) -/

def MAX_LINE_MESSAGE_LENGTH : Nat := 1000

/-- An outbound send operation of the messaging client: one
`reply_message` call carrying a list of segments, or one `push_message`
call carrying a single segment. -/
inductive SendOp
  | reply (msgs : List (List Char))
  | push (msg : List Char)
deriving DecidableEq

/-- The sending policy of `reply_long_text` (lines 149-162): at most five
segments go in the single `reply_message` call; any further segments are
each sent with `push_message`, in their original order. -/
def send_plan (segments : List (List Char)) : List SendOp :=
  if segments.length ≤ 5 then [SendOp.reply segments]
  else SendOp.reply (segments.take 5) :: (segments.drop 5).map SendOp.push

/-- `reply_long_text` (lines 141-164): split the text, then apply the
sending policy. -/
def reply_long_text (text : List Char) : List SendOp :=
  send_plan (split_message text MAX_LINE_MESSAGE_LENGTH)

/-- Claim C4: for every segment sequence, at most five segments means one
reply call carrying all of them and no push call; more than five means
one reply call carrying exactly the first five followed by one push call
per remaining segment, in the original order, and the reply call is
unique. -/
theorem claim4_delivery_policy (segments : List (List Char)) :
    (segments.length ≤ 5 →
      send_plan segments = [SendOp.reply segments] ∧
      ∀ s, SendOp.push s ∉ send_plan segments) ∧
    (5 < segments.length →
      send_plan segments =
        SendOp.reply (segments.take 5) :: (segments.drop 5).map SendOp.push ∧
      segments.take 5 ++ segments.drop 5 = segments ∧
      ((segments.drop 5).map SendOp.push).length = segments.length - 5) ∧
    (∀ msgs, SendOp.reply msgs ∈ send_plan segments →
      msgs = segments ∨ msgs = segments.take 5) := by
  refine ⟨?_, ?_, ?_⟩
  · intro h
    rw [send_plan, if_pos h]
    refine ⟨rfl, ?_⟩
    intro s hs
    simp at hs
  · intro h
    rw [send_plan, if_neg (by omega)]
    exact ⟨rfl, List.take_append_drop 5 segments, by simp⟩
  · intro msgs hmem
    by_cases h : segments.length ≤ 5
    · rw [send_plan, if_pos h] at hmem
      simp at hmem
      exact Or.inl hmem
    · rw [send_plan, if_neg h] at hmem
      rcases List.mem_cons.mp hmem with heq | hmem
      · exact Or.inr (SendOp.reply.injEq _ _ ▸ heq.symm ▸ rfl)
      · exfalso
        rcases List.mem_map.mp hmem with ⟨a, _, ha⟩
        cases ha

theorem claim4_witness :
    ((([['a'], ['b'], ['c']] : List (List Char)).length ≤ 5 ∧
      send_plan [['a'], ['b'], ['c']] = [SendOp.reply [['a'], ['b'], ['c']]]) ∧
     (5 < (([['a'], ['b'], ['c'], ['d'], ['e'], ['f'], ['g']] :
          List (List Char))).length ∧
      send_plan [['a'], ['b'], ['c'], ['d'], ['e'], ['f'], ['g']] =
        SendOp.reply [['a'], ['b'], ['c'], ['d'], ['e']] ::
          [SendOp.push ['f'], SendOp.push ['g']])) := by
  have h3 := claim4_delivery_policy [['a'], ['b'], ['c']]
  have h7 := claim4_delivery_policy
    [['a'], ['b'], ['c'], ['d'], ['e'], ['f'], ['g']]
  exact ⟨⟨by decide, (h3.1 (by decide)).1⟩,
    ⟨by decide, by rw [(h7.2.1 (by decide)).1]; rfl⟩⟩

/-! ### Generation client error handling (claim C7) -/

/-- Localized fallback returned on a non-success HTTP status (line 118). -/
def fallback_http : List Char :=
  "對不起，生成回應時發生錯誤。可能原因包括：系統繁忙、API 回應延遲或網絡問題，請稍後再試。".data

/-- Localized fallback returned when the try block raises (line 121). -/
def fallback_exn : List Char :=
  "對不起，生成回應時發生例外。可能原因包括：系統繁忙、API 回應延遲或網絡問題，請稍後再試。".data

/-- Outcome of the `requests.post` call inside `call_xai_api`: a response
with an HTTP status code and the extracted
`choices[0].message.content` (the `.get` chain defaults to `""`), or an
exception raised inside the try block (transport failure or JSON decode
error). -/
inductive XaiOutcome
  | resp (status : Nat) (content : List Char)
  | exn

/-- What `call_xai_api` hands back: the value seen by the caller
(`Except.error` would mean an exception propagated out of the function)
and the number of error-level log records written. -/
structure XaiResult where
  value : Except Unit (List Char)
  errorLogs : Nat

/-- `call_xai_api` (lines 92-121): status 200 returns the extracted
content; any other status logs an error and returns `fallback_http`; an
exception is caught by the `except` clause, logged, and `fallback_exn`
is returned. -/
def call_xai_api : XaiOutcome → XaiResult
  | XaiOutcome.resp status content =>
    if status = 200 then ⟨Except.ok content, 0⟩
    else ⟨Except.ok fallback_http, 1⟩
  | XaiOutcome.exn => ⟨Except.ok fallback_exn, 1⟩

/-- Claim C7: `call_xai_api` never propagates an exception: on HTTP
success it returns the generated text, and on a non-success status or a
transport exception it returns a localized fallback message and writes
one error-level log record. -/
theorem claim7_no_propagation (o : XaiOutcome) :
    (∀ e : Unit, (call_xai_api o).value ≠ Except.error e) ∧
    (∀ c, o = XaiOutcome.resp 200 c → (call_xai_api o).value = Except.ok c) ∧
    (∀ s c, o = XaiOutcome.resp s c → s ≠ 200 →
      (call_xai_api o).value = Except.ok fallback_http ∧
      (call_xai_api o).errorLogs = 1) ∧
    (o = XaiOutcome.exn →
      (call_xai_api o).value = Except.ok fallback_exn ∧
      (call_xai_api o).errorLogs = 1) := by
  cases o with
  | resp s c =>
    by_cases hs : s = 200
    · subst hs
      refine ⟨by simp [call_xai_api], ?_, ?_, by intro h; cases h⟩
      · intro c' h
        cases h
        simp [call_xai_api]
      · intro s' c' h hne
        cases h
        exact absurd rfl hne
    · refine ⟨by simp [call_xai_api, hs], ?_, ?_, by intro h; cases h⟩
      · intro c' h
        cases h
        exact absurd rfl hs
      · intro s' c' h hne
        cases h
        simp [call_xai_api, hs]
  | exn =>
    refine ⟨by simp [call_xai_api], ?_, ?_, ?_⟩
    · intro c' h
      cases h
    · intro s' c' h hne
      cases h
    · intro h
      simp [call_xai_api]

theorem claim7_witness :
    (call_xai_api XaiOutcome.exn).value = Except.ok fallback_exn ∧
    (call_xai_api XaiOutcome.exn).errorLogs = 1 :=
  (claim7_no_propagation XaiOutcome.exn).2.2.2 rfl

/-! ### Soft timeout without cancellation (claim C8) -/

/-- The soft timeout passed to `thread.join` (line 223), in seconds. -/
def JOIN_TIMEOUT : Nat := 15

/-- The background generation thread, modelled by the wall-clock time at
which `get_api_response` finishes and the value it then stores into
`container` (it always stores one, substituting its own fallback if
`call_xai_api` were to raise). -/
structure GenThread where
  completionTime : Nat
  result : List Char

/-- The shared `container` as observed after `waited` seconds: the value
is present exactly when the thread has finished. -/
def containerAfter (t : GenThread) (waited : Nat) : Option (List Char) :=
  if t.completionTime ≤ waited then some t.result else none

/-- `thread.is_alive()` after `waited` seconds. -/
def threadAlive (t : GenThread) (waited : Nat) : Bool :=
  decide (waited < t.completionTime)

/-- Lines 223-228: `thread.join(timeout=15)`; if the thread is still
alive, `thread.join()` with no timeout, blocking until `completionTime`;
the handler never cancels the thread. -/
def waitedContainer (t : GenThread) : Option (List Char) :=
  if threadAlive t JOIN_TIMEOUT then containerAfter t t.completionTime
  else containerAfter t JOIN_TIMEOUT

/-- Line 228: `container.get('response', <fallback>)`. -/
def xai_response (t : GenThread) : List Char :=
  (waitedContainer t).getD fallback_http

/-- Claim C8: the handler waits past the soft timeout until the
background call finishes, so the delivered text is always the background
call's result — in particular a call finishing after the 15-second soft
timeout is still delivered, never replaced by the timeout substitute. -/
theorem claim8_soft_timeout (t : GenThread) :
    waitedContainer t = some t.result ∧
    xai_response t = t.result ∧
    (JOIN_TIMEOUT < t.completionTime → xai_response t = t.result) := by
  have h : waitedContainer t = some t.result := by
    unfold waitedContainer threadAlive containerAfter JOIN_TIMEOUT
    by_cases hc : t.completionTime ≤ 15
    · simp [hc, Nat.not_lt.mpr hc]
    · push_neg at hc
      simp [hc, Nat.lt_irrefl]
  exact ⟨h, by simp [xai_response, h], fun _ => by simp [xai_response, h]⟩

theorem claim8_witness :
    JOIN_TIMEOUT < 100 ∧
    xai_response ⟨100, "late answer".data⟩ = "late answer".data :=
  ⟨by decide, (claim8_soft_timeout ⟨100, "late answer".data⟩).2.2 (by decide)⟩

/-! ### The handler's shortcut path (claim C9) -/

def MAX_CONCURRENT_REQUESTS : Int := 5

/-- Python `str.strip()`. -/
def pystrip (s : List Char) : List Char := rstrip (lstrip s)

/-- The fixed "why no response" queries checked at line 192. -/
def shortcut_queries : List (List Char) :=
  ["查詢原因".data, "為什麼沒有回應".data, "無回應原因".data]

/-- The canned explanation replied on the shortcut path (line 195). -/
def canned_reply_text : List Char :=
  "可能原因包括：系統繁忙、API 回應延遲或網絡問題。請稍後再試或聯繫我們。".data

/-- The busy message replied on admission denial (line 205). -/
def busy_reply_text : List Char :=
  "低成本維運中😅 目前系統繁忙，等等在試試吧！".data

/-- The supplementary block appended when the user message contains
"定義" (lines 63-69). -/
def EXTRA_BLOCK : List Char :=
  ("PMP 答題思維\n- 是否應該遵循 PMBOK 的流程？是的，PDM 是 PMBOK 第 6 版第 6 章《專案時間管理》的一部分，特別是在活動排序過程中使用。\n- 這個選項是否與 PMP 最佳實踐相符？是的，使用 PDM 繪製活動之間的邏輯關係是符合 PMI 的最佳實踐。\n- 是否需要與利害關係人協商，或遵循變更管理流程？在繪製 PDM 的階段，通常不需要與利害關係人協商，但如果活動之間的依賴關係變更，可能需要啟動變更管理流程。\n\n【PMBOK 章節參考】：PMBOK 第 6 版，第 6 章《專案時間管理》。").data

/-- Python `sub in s`: `sub` occurs contiguously in `s`. -/
def hasSub (s sub : List Char) : Bool :=
  (List.range (s.length + 1)).any (fun i => (s.drop i).take sub.length = sub)

/-- Line 232: append the supplementary block when the user message
contains "定義". -/
def augment (user gen : List Char) : List Char :=
  if hasSub user ("定義".data) then gen ++ ("\n\n".data) ++ EXTRA_BLOCK else gen

/-- Externally observable actions of one `handle_message` invocation. -/
inductive HandlerAction
  | lineReply (msg : List Char)
  | loading
  | genCall (msg : List Char)
  | deliver (text : List Char)
deriving DecidableEq

/-- One `handle_message` invocation (lines 188-240) running alone, as the
sequence of its observable actions and the final value of
`current_requests`, given the inbound text, the counter at entry, and the
generation result: the shortcut check, then the guarded admission check
(busy reply and return, or increment), then loading animation, the
generation call on the stripped text, augmentation, delivery, and the
decrement in the `finally` block. -/
def handle_message (text : List Char) (counter : Int) (gen : List Char) :
    List HandlerAction × Int :=
  if pystrip text ∈ shortcut_queries then
    ([HandlerAction.lineReply canned_reply_text], counter)
  else if MAX_CONCURRENT_REQUESTS ≤ counter then
    ([HandlerAction.lineReply busy_reply_text], counter)
  else
    ([HandlerAction.loading, HandlerAction.genCall (pystrip text),
      HandlerAction.deliver (augment (pystrip text) gen)],
      counter + 1 - 1)

/-- Claim C9: on a message whose stripped text is one of the fixed
"why no response" queries, the handler sends a single canned reply and
terminates: no generation call is made and `current_requests` is left
unchanged. -/
theorem claim9_shortcut (text : List Char) (counter : Int) (gen : List Char)
    (h : pystrip text ∈ shortcut_queries) :
    handle_message text counter gen =
      ([HandlerAction.lineReply canned_reply_text], counter) ∧
    (∀ u, HandlerAction.genCall u ∉ (handle_message text counter gen).1) ∧
    (handle_message text counter gen).2 = counter := by
  unfold handle_message
  rw [if_pos h]
  refine ⟨rfl, ?_, rfl⟩
  intro u hu
  simp at hu

theorem claim9_witness :
    pystrip ("查詢原因".data) ∈ shortcut_queries ∧
    handle_message ("查詢原因".data) 2 ("x".data) =
      ([HandlerAction.lineReply canned_reply_text], 2) :=
  ⟨by decide, (claim9_shortcut ("查詢原因".data) 2 ("x".data) (by decide)).1⟩

/-! ### The admission counter under concurrency (claim C2) -/

inductive Phase
  | idle
  | working
  | finished
deriving DecidableEq

/-- Global state shared by `n` concurrent `handle_message` invocations:
the `current_requests` counter and each invocation's progress.  The
counter is an integer, as in Python, so that an unbalanced decrement
could drive it negative. -/
structure GateState (n : Nat) where
  current_requests : Int
  phase : Fin n → Phase

/-- The atomic transitions on the shared state.  `denied` and `granted`
are the `with counter_lock` block at lines 200-208 (ceiling check and
increment under the mutex; a denied request changes no state); `release`
is the `finally` block at lines 238-240, which runs exactly once per
granted invocation on every exit path of the guarded work. -/
inductive GateStep {n : Nat} : GateState n → GateState n → Prop
  | denied (s : GateState n) (i : Fin n) :
      s.phase i = Phase.idle →
      MAX_CONCURRENT_REQUESTS ≤ s.current_requests →
      GateStep s ⟨s.current_requests, Function.update s.phase i Phase.finished⟩
  | granted (s : GateState n) (i : Fin n) :
      s.phase i = Phase.idle →
      s.current_requests < MAX_CONCURRENT_REQUESTS →
      GateStep s ⟨s.current_requests + 1, Function.update s.phase i Phase.working⟩
  | release (s : GateState n) (i : Fin n) :
      s.phase i = Phase.working →
      GateStep s ⟨s.current_requests - 1, Function.update s.phase i Phase.finished⟩

def initState (n : Nat) : GateState n := ⟨0, fun _ => Phase.idle⟩

def Reachable {n : Nat} (s : GateState n) : Prop :=
  Relation.ReflTransGen GateStep (initState n) s

/-- The number of invocations currently holding a ticket. -/
def workingCount {n : Nat} (s : GateState n) : Nat :=
  (Finset.univ.filter (fun i => s.phase i = Phase.working)).card

theorem update_filter_eq {n : Nat} (f : Fin n → Phase) (i : Fin n) (ph : Phase)
    (hi : f i ≠ Phase.working) (hp : ph ≠ Phase.working) :
    Finset.univ.filter
        (fun j => Function.update f i ph j = Phase.working) =
      Finset.univ.filter (fun j => f j = Phase.working) := by
  apply Finset.ext
  intro j
  simp only [Finset.mem_filter, Finset.mem_univ, true_and]
  by_cases hj : j = i
  · subst hj
    rw [Function.update_same]
    exact ⟨fun h => absurd h hp, fun h => absurd h hi⟩
  · rw [Function.update_noteq hj]

theorem update_filter_insert {n : Nat} (f : Fin n → Phase) (i : Fin n) :
    Finset.univ.filter
        (fun j => Function.update f i Phase.working j = Phase.working) =
      insert i (Finset.univ.filter (fun j => f j = Phase.working)) := by
  apply Finset.ext
  intro j
  simp only [Finset.mem_filter, Finset.mem_univ, true_and, Finset.mem_insert]
  by_cases hj : j = i
  · subst hj
    rw [Function.update_same]
    simp
  · rw [Function.update_noteq hj]
    constructor
    · exact fun h => Or.inr h
    · rintro (rfl | h)
      · exact absurd rfl hj
      · exact h

theorem update_filter_erase {n : Nat} (f : Fin n → Phase) (i : Fin n) :
    Finset.univ.filter
        (fun j => Function.update f i Phase.finished j = Phase.working) =
      (Finset.univ.filter (fun j => f j = Phase.working)).erase i := by
  apply Finset.ext
  intro j
  simp only [Finset.mem_filter, Finset.mem_univ, true_and, Finset.mem_erase]
  by_cases hj : j = i
  · subst hj
    rw [Function.update_same]
    simp
  · rw [Function.update_noteq hj]
    simp [hj]

theorem gate_step_invariant {n : Nat} {s s' : GateState n}
    (hstep : GateStep s s')
    (ih1 : s.current_requests = (workingCount s : Int))
    (ih2 : s.current_requests ≤ MAX_CONCURRENT_REQUESTS) :
    s'.current_requests = (workingCount s' : Int) ∧
    s'.current_requests ≤ MAX_CONCURRENT_REQUESTS := by
  cases hstep with
  | denied i hidle hge =>
    constructor
    · rw [ih1]
      unfold workingCount
      rw [update_filter_erase]
      rw [Finset.erase_eq_of_not_mem (by simp [hidle])]
    · exact ih2
  | granted i hidle hlt =>
    have hnot : i ∉ Finset.univ.filter (fun j => s.phase j = Phase.working) := by
      simp [hidle]
    constructor
    · rw [ih1]
      unfold workingCount
      rw [update_filter_insert, Finset.card_insert_of_not_mem hnot]
      push_cast
      ring
    · show s.current_requests + 1 ≤ MAX_CONCURRENT_REQUESTS
      omega
  | release i hwork =>
    have hmem : i ∈ Finset.univ.filter (fun j => s.phase j = Phase.working) := by
      simp [hwork]
    have hcard :
        1 ≤ (Finset.univ.filter (fun j => s.phase j = Phase.working)).card :=
      Finset.card_pos.mpr ⟨i, hmem⟩
    constructor
    · show s.current_requests - 1 =
        ((Finset.univ.filter
          (fun j => Function.update s.phase i Phase.finished j =
            Phase.working)).card : Int)
      rw [update_filter_erase, Finset.card_erase_of_mem hmem,
        Nat.cast_sub hcard, ih1]
      simp [workingCount]
    · show s.current_requests - 1 ≤ MAX_CONCURRENT_REQUESTS
      omega

theorem gate_invariant {n : Nat} {s : GateState n} (h : Reachable s) :
    s.current_requests = (workingCount s : Int) ∧
    s.current_requests ≤ MAX_CONCURRENT_REQUESTS := by
  induction h with
  | refl =>
    constructor
    · simp [initState, workingCount]
    · simp [initState, MAX_CONCURRENT_REQUESTS]
  | tail hreach hstep ih =>
    exact gate_step_invariant hstep ih.1 ih.2

/-- Claim C2: in every reachable state of any number of concurrent
invocations, `current_requests` equals the number of granted-but-not-yet
released invocations and never exceeds `MAX_CONCURRENT_REQUESTS`; a
denied request changes no state; and once every invocation has finished
the counter is back to `0`. -/
theorem claim2_admission_invariant {n : Nat} (s : GateState n)
    (h : Reachable s) :
    s.current_requests = (workingCount s : Int) ∧
    s.current_requests ≤ MAX_CONCURRENT_REQUESTS ∧
    ((∀ i, s.phase i = Phase.finished) → s.current_requests = 0) := by
  obtain ⟨h1, h2⟩ := gate_invariant h
  refine ⟨h1, h2, ?_⟩
  intro hall
  rw [h1]
  have hz : workingCount s = 0 := by
    unfold workingCount
    rw [Finset.card_eq_zero, Finset.eq_empty_iff_forall_not_mem]
    intro i hi
    simp only [Finset.mem_filter, Finset.mem_univ, true_and] at hi
    rw [hall i] at hi
    cases hi
  simp [hz]

def gw1 : GateState 1 :=
  ⟨(initState 1).current_requests + 1,
    Function.update (initState 1).phase 0 Phase.working⟩

def gw2 : GateState 1 :=
  ⟨gw1.current_requests - 1, Function.update gw1.phase 0 Phase.finished⟩

theorem claim2_witness :
    gw2.current_requests = (workingCount gw2 : Int) ∧
    gw2.current_requests ≤ MAX_CONCURRENT_REQUESTS ∧
    ((∀ i, gw2.phase i = Phase.finished) → gw2.current_requests = 0) := by
  refine claim2_admission_invariant gw2 ?_
  refine Relation.ReflTransGen.tail (b := gw1)
    (Relation.ReflTransGen.single ?_) ?_
  · exact GateStep.granted (initState 1) 0 rfl (by decide)
  · exact GateStep.release gw1 0 (by simp [gw1, initState])

end PMPLearning
